import Mathlib

/-!
Verification of the job-dispatch layer of the deeperwin repository
(`src/deeperwin/dispatch.py`), as a shallow embedding in Lean 4.

Python strings are modelled as Lean `String` / `List Char`.  The
floating point amount produced by `float(...)` on the matched numeral,
and the multiplications and division that follow, are modelled
faithfully as IEEE 754 binary64 arithmetic: every value is the exact
rational a finite double denotes, each operation correctly rounds its
exact rational result to 53 significant bits (round to nearest, ties to
even, with gradual underflow below `2^-1022` and overflow to infinity at
`2^1024`), infinity is `none`, and `int()` of an infinite value is the
`OverflowError` Python raises there.  The filesystem is modelled as
explicit finite lists of directory and file paths (paths are lists of
components), and the Python heap, where a claim is about mutation, as an
explicit store of lists.
-/

namespace Deeperwin

/-! ## Generic list/string helpers (used to model `in`, `startswith`, ...) -/

/-- `hasPrefCL needle hay`: `needle` is a prefix of `hay` (on char lists). -/
def hasPrefCL : List Char → List Char → Bool
  | [], _ => true
  | _ :: _, [] => false
  | a :: as, b :: bs => a == b && hasPrefCL as bs

/-- `containsSub needle hay`: `needle` occurs contiguously inside `hay`;
models Python's `needle in hay` on strings. -/
def containsSub (needle : List Char) : List Char → Bool
  | [] => hasPrefCL needle []
  | c :: cs => hasPrefCL needle (c :: cs) || containsSub needle cs

/-- String-level wrapper for `containsSub`. -/
def containsSubS (needle hay : String) : Bool :=
  containsSub needle.data hay.data

/-- Model of Python `str.lower()` (ASCII, which is all that occurs here). -/
def toLowerS (s : String) : String :=
  String.mk (s.data.map Char.toLower)

/-- The last line of a string: everything after the final newline. -/
def lastLineCL (s : List Char) : List Char :=
  (s.reverse.takeWhile (fun c => c ≠ '\n')).reverse

/-- String-level wrapper for `lastLineCL`. -/
def lastLineS (s : String) : String :=
  String.mk (lastLineCL s.data)

/-! ## Duration parser (`duration_string_to_minutes`, dispatch.py:145-159)

The Python code searches the string for the regex
`([0-9]*[.]?[0-9]+)( *)(.*)`, converts group 1 with `float`, lower-cases
group 3 and multiplies according to the unit table, truncating with
`int`.  `re.search` scans left to right for the first position at which
the numeral sub-pattern matches (the rest of the pattern always
matches); greedy matching with backtracking makes group 1 the digit run
at that position, extended by `.`+digits when present.  `.` in the regex
does not match a newline, so group 3 stops at the first newline. -/

/-- Attempt of the numeral pattern `[0-9]*[.]?[0-9]+` at the head of `s`
(greedy, with backtracking as the Python regex engine performs it).
Returns the matched numeral and the remainder. -/
def matchNumeralAt (s : List Char) : Option (List Char × List Char) :=
  let d1 := s.takeWhile Char.isDigit
  let r1 := s.dropWhile Char.isDigit
  match r1 with
  | c :: r2 =>
    if c = '.' then
      let d2 := r2.takeWhile Char.isDigit
      if d2.isEmpty then
        if d1.isEmpty then none else some (d1, r1)
      else
        some (d1 ++ '.' :: d2, r2.dropWhile Char.isDigit)
    else
      if d1.isEmpty then none else some (d1, r1)
  | [] => if d1.isEmpty then none else some (d1, r1)

/-- Model of `re.search` for the numeral pattern: first position (left to
right) where `matchNumeralAt` succeeds. -/
def findNumeral : List Char → Option (List Char × List Char)
  | [] => none
  | c :: cs =>
    match matchNumeralAt (c :: cs) with
    | some m => some m
    | none => findNumeral cs

/-- Value of a digit string, most significant first. -/
def natOfDigits (l : List Char) : Nat :=
  l.foldl (fun acc c => acc * 10 + (c.toNat - '0'.toNat)) 0

/-- The exact rational value (numerator, denominator) denoted by a
matched numeral (digits with at most one dot, never ending in a dot). -/
def numeralValue (g : List Char) : Nat × Nat :=
  let ip := g.takeWhile (fun c => c ≠ '.')
  let rest := g.dropWhile (fun c => c ≠ '.')
  match rest with
  | [] => (natOfDigits ip, 1)
  | _ :: frac => (natOfDigits (ip ++ frac), 10 ^ frac.length)

/-! ### IEEE 754 binary64 model

A finite non-negative double is represented by a mantissa/exponent pair
`(m, u)` denoting the exact rational `m * 2^u`.  Each arithmetic step
rounds its exact rational result to the nearest representable value: a
multiple of `2^(e-52)` for results with `2^e ≤ x < 2^(e+1) ≥ 2^-1022`,
of `2^-1074` below that (subnormals), ties going to the even multiple;
results that round to `2^1024` or beyond overflow to infinity (`none`).
Negative values never occur in the duration parser (the regex cannot
match a sign), so the model covers non-negative inputs. -/

/-- Structural floor base-2 logarithm, fueled so that it evaluates. -/
def log2Aux : Nat → Nat → Nat
  | 0, _ => 0
  | fuel + 1, n => if n ≤ 1 then 0 else log2Aux fuel (n / 2) + 1

/-- `⌊log₂ n⌋` for positive `n` (0 at 0). -/
def log2N (n : Nat) : Nat := log2Aux n n

/-- `⌊log₂ (n/d)⌋` for positive `n` and `d`. -/
def floorLog2F (n d : Nat) : Int :=
  let e0 : Int := (log2N n : Int) - log2N d
  if 2 ^ e0.toNat * d ≤ n * 2 ^ (-e0).toNat then e0 else e0 - 1

/-- Round the exact rational `n/d` (`d > 0`) to the nearest binary64
value, ties to even.  The ulp exponent is `max (⌊log₂ (n/d)⌋ - 52)
(-1074)`; the mantissa is the nearest integer to `n/d / 2^u` (even on
ties), found from the integer division of `n * 2^(-u)` by `d * 2^u`
(one of the two powers is `2^0`).  `none` is positive infinity:
overflow at `2^1024`, i.e. when `m * 2^(u + 1074)` reaches `2^2098`. -/
def roundFrac (n d : Nat) : Option (Nat × Int) :=
  if n = 0 then some (0, 0)
  else
    let u := max (floorLog2F n d - 52) (-1074)
    let num := n * 2 ^ (-u).toNat
    let den := d * 2 ^ u.toNat
    let fl := num / den
    let rem := num % den
    let m :=
      if 2 * rem < den then fl
      else if den < 2 * rem then fl + 1
      else if fl % 2 = 0 then fl else fl + 1
    if 2 ^ 2098 ≤ m * 2 ^ (u + 1074).toNat then none else some (m, u)

/-- `float(group1)`: CPython correctly rounds the decimal literal to the
nearest double (overflowing to infinity for enormous literals). -/
def floatOfNumeral (g : List Char) : Option (Nat × Int) :=
  roundFrac (numeralValue g).1 (numeralValue g).2

/-- Double multiplication by an integer constant: correctly rounded;
infinity is absorbing. -/
def mulDouble (x : Option (Nat × Int)) (c : Nat) : Option (Nat × Int) :=
  match x with
  | none => none
  | some (m, u) => roundFrac (m * c * 2 ^ u.toNat) (2 ^ (-u).toNat)

/-- Double division by a positive integer constant: correctly rounded;
infinity is absorbing. -/
def divDouble (x : Option (Nat × Int)) (c : Nat) : Option (Nat × Int) :=
  match x with
  | none => none
  | some (m, u) => roundFrac (m * 2 ^ u.toNat) (c * 2 ^ (-u).toNat)

inductive DurationError where
  | invalidDuration
  | unknownUnit
  | overflow
deriving DecidableEq

/-- `int(x)` on a non-negative double: truncation (= floor); `int()` of
an infinite value raises `OverflowError`. -/
def truncOrOverflow (x : Option (Nat × Int)) : Except DurationError Int :=
  match x with
  | none => .error .overflow
  | some (m, u) => .ok ((m * 2 ^ u.toNat / 2 ^ (-u).toNat : Nat) : Int)

/-- Boolean list membership for strings (models Python's `x in [...]`). -/
def memStr (l : List String) (s : String) : Bool :=
  l.any (fun x => x == s)

def unitsDay : List String := ["d", "day", "days"]
def unitsHour : List String := ["h", "hour", "hours"]
def unitsMinute : List String := ["m", "min", "mins", "minute", "minutes", ""]
def unitsSecond : List String := ["s", "sec", "secs", "second", "seconds"]

/-- All unit spellings the parser recognizes (lower-case). -/
def recognizedUnits : List String := unitsDay ++ unitsHour ++ unitsMinute ++ unitsSecond

/-- Core of `duration_string_to_minutes` on char lists:
`amount, unit = float(match.group(1)), match.group(3).lower()` followed
by the unit table, every arithmetic step in binary64. -/
def durationCore (s : List Char) : Except DurationError Int :=
  match findNumeral s with
  | none => .error .invalidDuration
  | some (g1, rest) =>
    let amount := floatOfNumeral g1
    let afterSpaces := rest.dropWhile (fun c => c = ' ')
    let unit := String.mk ((afterSpaces.takeWhile (fun c => c ≠ '\n')).map Char.toLower)
    if memStr unitsDay unit then truncOrOverflow (mulDouble amount 1440)
    else if memStr unitsHour unit then truncOrOverflow (mulDouble amount 60)
    else if memStr unitsMinute unit then truncOrOverflow amount
    else if memStr unitsSecond unit then truncOrOverflow (divDouble amount 60)
    else .error .unknownUnit

/-- `duration_string_to_minutes` (dispatch.py:145-159). -/
def duration_string_to_minutes (s : String) : Except DurationError Int :=
  durationCore s.data

/-! ### Lemmas about the numeral search -/

theorem takeWhile_of_all {α : Type} {p : α → Bool} (l : List α)
    (h : ∀ c ∈ l, p c = true) : l.takeWhile p = l := by
  induction l with
  | nil => rfl
  | cons c cs ih =>
    simp only [List.takeWhile_cons, h c (List.mem_cons_self c cs), if_true]
    exact congrArg (c :: ·) (ih fun x hx => h x (List.mem_cons_of_mem _ hx))

theorem dropWhile_of_all {α : Type} {p : α → Bool} (l : List α)
    (h : ∀ c ∈ l, p c = true) : l.dropWhile p = [] := by
  induction l with
  | nil => rfl
  | cons c cs ih =>
    simp only [List.dropWhile_cons, h c (List.mem_cons_self c cs), if_true]
    exact ih fun x hx => h x (List.mem_cons_of_mem _ hx)

theorem takeWhile_append_of_all {α : Type} {p : α → Bool} (l₁ l₂ : List α)
    (h : ∀ c ∈ l₁, p c = true) :
    (l₁ ++ l₂).takeWhile p = l₁ ++ l₂.takeWhile p := by
  induction l₁ with
  | nil => rfl
  | cons c cs ih =>
    simp only [List.cons_append, List.takeWhile_cons, h c (List.mem_cons_self c cs), if_true]
    exact congrArg (c :: ·) (ih fun x hx => h x (List.mem_cons_of_mem _ hx))

theorem dropWhile_append_of_all {α : Type} {p : α → Bool} (l₁ l₂ : List α)
    (h : ∀ c ∈ l₁, p c = true) :
    (l₁ ++ l₂).dropWhile p = l₂.dropWhile p := by
  induction l₁ with
  | nil => rfl
  | cons c cs ih =>
    simp only [List.cons_append, List.dropWhile_cons, h c (List.mem_cons_self c cs), if_true]
    exact ih fun x hx => h x (List.mem_cons_of_mem _ hx)

theorem digit_ne_dot {c : Char} (h : c.isDigit = true) : c ≠ '.' := by
  intro hc
  rw [hc] at h
  exact absurd h (by decide)

/-- On a string made of a non-empty digit run followed by a remainder whose
first character is neither a digit nor a dot, the numeral pattern matches
exactly the digit run. -/
theorem matchNumeralAt_digits (ds rest : List Char) (hne : ds ≠ [])
    (hds : ∀ c ∈ ds, c.isDigit = true)
    (hrest : ∀ c, rest.head? = some c → c.isDigit = false ∧ c ≠ '.') :
    matchNumeralAt (ds ++ rest) = some (ds, rest) := by
  have ht : (ds ++ rest).takeWhile Char.isDigit = ds := by
    rw [takeWhile_append_of_all ds rest hds]
    cases rest with
    | nil => simp
    | cons c cs =>
      rcases hrest c rfl with ⟨h1, _⟩
      simp [List.takeWhile_cons, h1]
  have hd : (ds ++ rest).dropWhile Char.isDigit = rest := by
    rw [dropWhile_append_of_all ds rest hds]
    cases rest with
    | nil => rfl
    | cons c cs =>
      rcases hrest c rfl with ⟨h1, _⟩
      simp [List.dropWhile_cons, h1]
  have hdsne : ds.isEmpty = false := by
    cases ds with
    | nil => exact absurd rfl hne
    | cons d ds' => rfl
  simp only [matchNumeralAt, ht, hd]
  cases rest with
  | nil => simp [hdsne]
  | cons c cs =>
    rcases hrest c rfl with ⟨_, h2⟩
    simp [h2, hdsne]

theorem findNumeral_digits (ds rest : List Char) (hne : ds ≠ [])
    (hds : ∀ c ∈ ds, c.isDigit = true)
    (hrest : ∀ c, rest.head? = some c → c.isDigit = false ∧ c ≠ '.') :
    findNumeral (ds ++ rest) = some (ds, rest) := by
  have hm := matchNumeralAt_digits ds rest hne hds hrest
  cases ds with
  | nil => exact absurd rfl hne
  | cons d ds' =>
    rw [List.cons_append, findNumeral, ← List.cons_append, hm]

/-- A string containing no digit at all admits no match of the numeral
pattern anywhere. -/
theorem findNumeral_no_digit (s : List Char) (h : ∀ c ∈ s, c.isDigit = false) :
    findNumeral s = none := by
  induction s with
  | nil => rfl
  | cons c cs ih =>
    have hc : c.isDigit = false := h c (List.mem_cons_self c cs)
    have hcs : ∀ x ∈ cs, x.isDigit = false := fun x hx => h x (List.mem_cons_of_mem _ hx)
    have ht : (c :: cs).takeWhile Char.isDigit = [] := by simp [List.takeWhile_cons, hc]
    have hd : (c :: cs).dropWhile Char.isDigit = c :: cs := by simp [List.dropWhile_cons, hc]
    have hm : matchNumeralAt (c :: cs) = none := by
      simp only [matchNumeralAt, ht, hd]
      by_cases hdot : c = '.'
      · have htcs : cs.takeWhile Char.isDigit = [] := by
          cases cs with
          | nil => rfl
          | cons x xs => simp [List.takeWhile_cons, hcs x (List.mem_cons_self x xs)]
        simp [hdot, htcs]
      · simp [hdot]
    rw [findNumeral, hm, ih hcs]

theorem numeralValue_digits (ds : List Char) (hds : ∀ c ∈ ds, c.isDigit = true) :
    numeralValue ds = (natOfDigits ds, 1) := by
  have hall : ∀ c ∈ ds, (decide (c ≠ '.')) = true := fun c hc =>
    decide_eq_true (digit_ne_dot (hds c hc))
  simp only [numeralValue, takeWhile_of_all ds hall, dropWhile_of_all ds hall]

theorem memStr_iff {l : List String} {s : String} : memStr l s = true ↔ s ∈ l := by
  simp [memStr, List.any_eq_true]

theorem memStr_false {l : List String} {s : String} (h : s ∉ l) : memStr l s = false := by
  rw [← Bool.not_eq_true, memStr_iff]
  exact h

/-- The head of a space-led remainder is neither a digit nor a dot. -/
theorem headSpaceOk (l : List Char) :
    ∀ c, (' ' :: l).head? = some c → c.isDigit = false ∧ c ≠ '.' := by
  intro c hc
  obtain rfl : ' ' = c := by simpa using hc
  exact ⟨by decide, by decide⟩

/-! ### Correctness lemmas for the binary64 rounding

The specification side works in `ℚ`: `qpow2 e` is `2^e` and
`roundToMultiple q u` rounds `q` to the nearest integer multiple of
`2^u`, ties to even.  The bridge lemma `roundFrac_cases` shows the
executable mantissa/exponent algorithm computes exactly this rounding at
the binary64 ulp exponent. -/

/-- `2^e` in `ℚ` for an integer exponent. -/
def qpow2 (e : Int) : ℚ := (2 : ℚ) ^ e

/-- Round `q` to the nearest integer multiple of `2^u`, ties to even. -/
def roundToMultiple (q : ℚ) (u : Int) : ℚ :=
  let scaled := q * qpow2 (-u)
  let fl := ⌊scaled⌋
  let fr := scaled - fl
  let m : Int :=
    if fr < 1 / 2 then fl
    else if 1 / 2 < fr then fl + 1
    else if fl % 2 = 0 then fl else fl + 1
  (m : ℚ) * qpow2 u

theorem qpow2_pos (e : Int) : 0 < qpow2 e := zpow_pos (by norm_num) e

theorem qpow2_add (a b : Int) : qpow2 (a + b) = qpow2 a * qpow2 b :=
  zpow_add₀ (by norm_num) a b

theorem qpow2_zero : qpow2 0 = 1 := by
  simp [qpow2]

theorem qpow2_mul_neg (u : Int) : qpow2 u * qpow2 (-u) = 1 := by
  rw [← qpow2_add]
  simp [qpow2_zero]

theorem qpow2_le_qpow2 {a b : Int} (h : a ≤ b) : qpow2 a ≤ qpow2 b :=
  zpow_le_zpow_right₀ (by norm_num) h

theorem qpow2_lt_iff {a b : Int} : qpow2 a < qpow2 b ↔ a < b :=
  zpow_lt_zpow_iff_right₀ (by norm_num)

theorem qpow2_natCast (k : Nat) : qpow2 (k : Int) = ((2 ^ k : Nat) : ℚ) := by
  rw [qpow2, zpow_natCast]
  push_cast
  ring

theorem qpow2_toNat_div (u : Int) :
    qpow2 u = ((2 ^ u.toNat : Nat) : ℚ) / ((2 ^ (-u).toNat : Nat) : ℚ) := by
  rcases Int.le_or_lt 0 u with hu | hu
  · obtain ⟨k, rfl⟩ : ∃ k : Nat, u = (k : Int) := ⟨u.toNat, by omega⟩
    have h1 : (-(k : Int)).toNat = 0 := by omega
    have h2 : ((k : Int)).toNat = k := by omega
    rw [h1, h2, qpow2_natCast]
    norm_num
  · obtain ⟨k, rfl⟩ : ∃ k : Nat, u = -(k : Int) := ⟨(-u).toNat, by omega⟩
    have h1 : (-(k : Int)).toNat = 0 := by omega
    have h2 : (-(-(k : Int))).toNat = k := by omega
    rw [h1, h2, qpow2, zpow_neg, zpow_natCast]
    push_cast
    rw [one_div]

theorem log2Aux_spec : ∀ fuel n, 0 < n → n ≤ fuel →
    2 ^ log2Aux fuel n ≤ n ∧ n < 2 ^ (log2Aux fuel n + 1) := by
  intro fuel
  induction fuel with
  | zero => intro n h1 h2; omega
  | succ f ih =>
    intro n h1 h2
    by_cases hn1 : n ≤ 1
    · have : n = 1 := by omega
      simp [log2Aux, hn1, this]
    · have h2' : n / 2 ≤ f := by omega
      have h1' : 0 < n / 2 := by omega
      obtain ⟨ihl, ihr⟩ := ih (n / 2) h1' h2'
      have hmod := Nat.div_add_mod n 2
      constructor
      · simp only [log2Aux, if_neg hn1]
        calc 2 ^ (log2Aux f (n / 2) + 1) = 2 * 2 ^ log2Aux f (n / 2) := by ring
          _ ≤ 2 * (n / 2) := by omega
          _ ≤ n := by omega
      · simp only [log2Aux, if_neg hn1]
        calc n = 2 * (n / 2) + n % 2 := by omega
          _ < 2 * 2 ^ (log2Aux f (n / 2) + 1) := by
              have : n % 2 < 2 := Nat.mod_lt _ (by norm_num)
              omega
          _ = 2 ^ (log2Aux f (n / 2) + 1 + 1) := by ring

theorem log2N_spec (n : Nat) (h : 0 < n) :
    2 ^ log2N n ≤ n ∧ n < 2 ^ (log2N n + 1) :=
  log2Aux_spec n n h le_rfl

theorem natRat_div_lt_div {A B n d : Nat} (hA : 0 < A) (hd : 0 < d)
    (h1 : A ≤ n) (h2 : d < B) : (A : ℚ) / B < (n : ℚ) / d := by
  have hB : 0 < B := lt_of_le_of_lt (Nat.zero_le d) h2
  rw [div_lt_div_iff (by exact_mod_cast hB) (by exact_mod_cast hd)]
  have c1 : (A : ℚ) * d < A * B :=
    mul_lt_mul_of_pos_left (by exact_mod_cast h2) (by exact_mod_cast hA)
  have c2 : (A : ℚ) * B ≤ n * B :=
    mul_le_mul_of_nonneg_right (by exact_mod_cast h1) (by positivity)
  linarith

theorem natRat_div_lt_div' {n d C D : Nat} (hC : 0 < C) (hD : 0 < D) (hd : 0 < d)
    (h1 : n < C) (h2 : D ≤ d) : (n : ℚ) / d < (C : ℚ) / D := by
  rw [div_lt_div_iff (by exact_mod_cast hd) (by exact_mod_cast hD)]
  have c1 : (n : ℚ) * D < C * D :=
    mul_lt_mul_of_pos_right (by exact_mod_cast h1) (by exact_mod_cast hD)
  have c2 : (C : ℚ) * D ≤ C * d :=
    mul_le_mul_of_nonneg_left (by exact_mod_cast h2) (by positivity)
  linarith

theorem qpow2_le_div_iff (e : Int) (n d : Nat) (hd : 0 < d) :
    (qpow2 e ≤ (n : ℚ) / d ↔ 2 ^ e.toNat * d ≤ n * 2 ^ (-e).toNat) := by
  rw [qpow2_toNat_div, div_le_div_iff (by positivity) (by exact_mod_cast hd)]
  constructor
  · intro h
    exact_mod_cast h
  · intro h
    exact_mod_cast h

/-- `floorLog2F` is the floor of the base-2 logarithm of the fraction. -/
theorem floorLog2F_spec (n d : Nat) (hn : 0 < n) (hd : 0 < d) :
    qpow2 (floorLog2F n d) ≤ (n : ℚ) / d ∧ (n : ℚ) / d < qpow2 (floorLog2F n d + 1) := by
  obtain ⟨h1, h2⟩ := log2N_spec n hn
  obtain ⟨h3, h4⟩ := log2N_spec d hd
  have hlow : qpow2 ((log2N n : Int) - log2N d - 1) < (n : ℚ) / d := by
    rw [show (log2N n : Int) - log2N d - 1
        = (log2N n : Int) - (log2N d + 1 : Nat) by push_cast; ring]
    rw [sub_eq_add_neg, qpow2_add, qpow2_natCast, qpow2, zpow_neg, zpow_natCast,
      ← division_def]
    rw [show ((2 : ℚ) ^ (log2N d + 1)) = ((2 ^ (log2N d + 1) : Nat) : ℚ) by push_cast; ring]
    exact natRat_div_lt_div (Nat.pow_pos (by norm_num)) hd h1 h4
  have hhigh : (n : ℚ) / d < qpow2 ((log2N n : Int) - log2N d + 1) := by
    rw [show (log2N n : Int) - log2N d + 1
        = ((log2N n + 1 : Nat) : Int) - log2N d by push_cast; ring]
    rw [sub_eq_add_neg, qpow2_add, qpow2_natCast, qpow2, zpow_neg, zpow_natCast,
      ← division_def]
    rw [show ((2 : ℚ) ^ log2N d) = ((2 ^ log2N d : Nat) : ℚ) by push_cast; ring]
    exact natRat_div_lt_div' (Nat.pow_pos (by norm_num)) (Nat.pow_pos (by norm_num))
      hd h2 h3
  simp only [floorLog2F]
  split_ifs with hcase
  · rw [← qpow2_le_div_iff _ _ _ hd] at hcase
    exact ⟨hcase, hhigh⟩
  · rw [← qpow2_le_div_iff _ _ _ hd] at hcase
    constructor
    · exact le_of_lt (by
        rw [show (log2N n : Int) - log2N d - 1
            = (log2N n : Int) - log2N d - 1 by ring]
        exact hlow)
    · rw [show (log2N n : Int) - log2N d - 1 + 1
          = (log2N n : Int) - log2N d by ring]
      exact lt_of_not_le hcase

/-- Rounding to a multiple of `2^u` is exact on exact multiples. -/
theorem roundToMultiple_exact (q : ℚ) (u : Int) (z : Int)
    (hz : q = (z : ℚ) * qpow2 u) : roundToMultiple q u = q := by
  simp only [roundToMultiple]
  have hscaled : q * qpow2 (-u) = (z : ℚ) := by
    rw [hz, mul_assoc, qpow2_mul_neg, mul_one]
  rw [hscaled, Int.floor_intCast]
  rw [if_pos (by norm_num : (z : ℚ) - z < 1 / 2)]
  exact hz.symm

/-- The rounding error is at most half an ulp. -/
theorem roundToMultiple_err (q : ℚ) (u : Int) :
    |roundToMultiple q u - q| ≤ qpow2 u / 2 := by
  simp only [roundToMultiple]
  have hq : q = q * qpow2 (-u) * qpow2 u := by
    rw [mul_assoc, mul_comm (qpow2 (-u)), qpow2_mul_neg, mul_one]
  have h0 : (⌊q * qpow2 (-u)⌋ : ℚ) ≤ q * qpow2 (-u) := Int.floor_le _
  have h1 : q * qpow2 (-u) < ⌊q * qpow2 (-u)⌋ + 1 := Int.lt_floor_add_one _
  have hpos : 0 < qpow2 u := qpow2_pos u
  have key : ∀ m : Int, |(m : ℚ) - q * qpow2 (-u)| ≤ 1 / 2 →
      |(m : ℚ) * qpow2 u - q| ≤ qpow2 u / 2 := by
    intro m hm
    conv_lhs => rw [hq]
    rw [← sub_mul, abs_mul, abs_of_pos hpos]
    have := mul_le_mul_of_nonneg_right hm hpos.le
    linarith
  split_ifs with hc1 hc2 hc3
  · exact key _ (by rw [abs_le]; constructor <;> linarith)
  · exact key _ (by rw [abs_le]; push_cast; constructor <;> linarith)
  · exact key _ (by rw [abs_le]; constructor <;> linarith)
  · exact key _ (by rw [abs_le]; push_cast; constructor <;> linarith)

theorem natDiv_cast_floor (a b : Nat) :
    ⌊(a : ℚ) / (b : ℚ)⌋ = ((a / b : Nat) : Int) := by
  rw [Rat.floor_natCast_div_natCast a b, Int.natCast_div]

theorem natMod_div_decomp (a b : Nat) (hb : 0 < b) :
    ((a % b : Nat) : ℚ) / b = (a : ℚ) / b - ((a / b : Nat) : ℚ) := by
  have hbq : ((b : Nat) : ℚ) ≠ 0 := Nat.cast_ne_zero.mpr hb.ne'
  have hc : ((b * (a / b) + a % b : Nat) : ℚ) = (a : ℚ) := by
    exact_mod_cast congrArg (fun k : Nat => (k : ℚ)) (Nat.div_add_mod a b)
  push_cast at hc
  field_simp
  linarith

theorem div_lt_half_iff (x y : Nat) (hy : 0 < y) :
    (((x : Nat) : ℚ) / y < 1 / 2) ↔ 2 * x < y := by
  rw [div_lt_iff (by exact_mod_cast hy : (0:ℚ) < y)]
  constructor
  · intro h
    have h2 : ((2 * x : Nat) : ℚ) < y := by push_cast; linarith
    exact_mod_cast h2
  · intro h
    have h2 : ((2 * x : Nat) : ℚ) < y := by exact_mod_cast h
    push_cast at h2
    linarith

theorem half_lt_div_iff (x y : Nat) (hy : 0 < y) :
    (1 / 2 < ((x : Nat) : ℚ) / y) ↔ y < 2 * x := by
  rw [lt_div_iff (by exact_mod_cast hy : (0:ℚ) < y)]
  constructor
  · intro h
    have h2 : ((y : Nat) : ℚ) < 2 * x := by push_cast; linarith
    exact_mod_cast h2
  · intro h
    have h2 : ((y : Nat) : ℚ) < ((2 * x : Nat) : ℚ) := by exact_mod_cast h
    push_cast at h2
    linarith

/-- The mantissa/exponent algorithm agrees with the rational rounding:
either it overflows and the rounded value reaches `2^1024`, or it
returns the exponent `max (⌊log₂⌋ - 52) (-1074)` and a mantissa whose
value is the correctly rounded one. -/
theorem roundFrac_cases (n d : Nat) (hn : 0 < n) (hd : 0 < d) :
    (roundFrac n d = none ∧
      qpow2 1024 ≤ roundToMultiple ((n : ℚ) / d) (max (floorLog2F n d - 52) (-1074))) ∨
    (∃ m : Nat, roundFrac n d = some (m, max (floorLog2F n d - 52) (-1074)) ∧
      ((m : Nat) : ℚ) * qpow2 (max (floorLog2F n d - 52) (-1074))
        = roundToMultiple ((n : ℚ) / d) (max (floorLog2F n d - 52) (-1074))) := by
  have hq : (0 : ℚ) < (n : ℚ) / d := by positivity
  set U := max (floorLog2F n d - 52) (-1074) with hUdef
  set NUM := n * 2 ^ (-U).toNat with hNUMdef
  set DEN := d * 2 ^ U.toNat with hDENdef
  set FL := NUM / DEN with hFLdef
  set REM := NUM % DEN with hREMdef
  have hDEN : 0 < DEN := by
    rw [hDENdef]
    positivity
  have hscaled : ((NUM : Nat) : ℚ) / ((DEN : Nat) : ℚ) = (n : ℚ) / d * qpow2 (-U) := by
    rw [hNUMdef, hDENdef, show qpow2 (-U) = ((2 ^ (-U).toNat : Nat) : ℚ)
        / ((2 ^ U.toNat : Nat) : ℚ) by rw [qpow2_toNat_div (-U), neg_neg]]
    have hdq : ((d : Nat) : ℚ) ≠ 0 := Nat.cast_ne_zero.mpr hd.ne'
    have hpq : ((2 ^ U.toNat : Nat) : ℚ) ≠ 0 := by positivity
    push_cast
    field_simp
  have hfl : ((FL : Nat) : Int) = ⌊(n : ℚ) / d * qpow2 (-U)⌋ := by
    rw [← hscaled, hFLdef]
    exact (natDiv_cast_floor NUM DEN).symm
  have hflq : ((FL : Nat) : ℚ) = (⌊(n : ℚ) / d * qpow2 (-U)⌋ : ℚ) := by
    exact_mod_cast congrArg (fun z : Int => (z : ℚ)) hfl
  have hfr : (n : ℚ) / d * qpow2 (-U) - (⌊(n : ℚ) / d * qpow2 (-U)⌋ : ℚ)
      = ((REM : Nat) : ℚ) / DEN := by
    rw [← hflq, hREMdef, natMod_div_decomp NUM DEN hDEN, hscaled, hFLdef]
  have hc1 : ((n : ℚ) / d * qpow2 (-U) - (⌊(n : ℚ) / d * qpow2 (-U)⌋ : ℚ) < 1 / 2)
      ↔ 2 * REM < DEN := by
    rw [hfr]
    exact div_lt_half_iff REM DEN hDEN
  have hc2 : (1 / 2 < (n : ℚ) / d * qpow2 (-U) - (⌊(n : ℚ) / d * qpow2 (-U)⌋ : ℚ))
      ↔ DEN < 2 * REM := by
    rw [hfr]
    exact half_lt_div_iff REM DEN hDEN
  have hc3 : (⌊(n : ℚ) / d * qpow2 (-U)⌋ % 2 = 0) ↔ FL % 2 = 0 := by
    rw [← hfl]
    omega
  set M := (if 2 * REM < DEN then FL
      else if DEN < 2 * REM then FL + 1
      else if FL % 2 = 0 then FL else FL + 1) with hMdef
  have hm : ((M : Nat) : ℚ) * qpow2 U = roundToMultiple ((n : ℚ) / d) U := by
    simp only [roundToMultiple]
    by_cases h1 : 2 * REM < DEN
    · rw [hMdef, if_pos h1, if_pos (hc1.mpr h1), hflq]
    · rw [hMdef, if_neg h1, if_neg (fun hh => h1 (hc1.mp hh))]
      by_cases h2 : DEN < 2 * REM
      · rw [if_pos h2, if_pos (hc2.mpr h2)]
        push_cast [hflq]
        ring_nf
      · rw [if_neg h2, if_neg (fun hh => h2 (hc2.mp hh))]
        by_cases h3 : FL % 2 = 0
        · rw [if_pos h3, if_pos (hc3.mpr h3), hflq]
        · rw [if_neg h3, if_neg (fun hh => h3 (hc3.mp hh))]
          push_cast [hflq]
          ring_nf
  have hover : (2 ^ 2098 ≤ M * 2 ^ (U + 1074).toNat)
      ↔ qpow2 1024 ≤ ((M : Nat) : ℚ) * qpow2 U := by
    have hU1074 : -1074 ≤ U := le_max_right _ _
    have htn : ((U + 1074).toNat : Int) = U + 1074 := Int.toNat_of_nonneg (by omega)
    have hkey : ((M : Nat) : ℚ) * qpow2 U * qpow2 1074
        = ((M * 2 ^ (U + 1074).toNat : Nat) : ℚ) := by
      obtain ⟨K, hK⟩ : ∃ K : Nat, U + 1074 = (K : Int) := ⟨(U + 1074).toNat, htn.symm⟩
      have hKt : (U + 1074).toNat = K := by omega
      rw [mul_assoc, ← qpow2_add, hKt, hK, qpow2_natCast]
      push_cast
      ring
    constructor
    · intro h
      have hq1 : ((2 ^ 2098 : Nat) : ℚ) ≤ ((M * 2 ^ (U + 1074).toNat : Nat) : ℚ) := by
        exact_mod_cast h
      rw [← hkey] at hq1
      rw [show ((2 ^ 2098 : Nat) : ℚ) = qpow2 2098 from (qpow2_natCast 2098).symm] at hq1
      rw [show qpow2 2098 = qpow2 1024 * qpow2 1074 by rw [← qpow2_add]; norm_num] at hq1
      have := (mul_le_mul_right (qpow2_pos 1074)).mp hq1
      exact this
    · intro h
      have hq1 := (mul_le_mul_right (qpow2_pos 1074)).mpr h
      rw [hkey] at hq1
      rw [show qpow2 1024 * qpow2 1074 = qpow2 2098 by rw [← qpow2_add]; norm_num] at hq1
      rw [show qpow2 2098 = ((2 ^ 2098 : Nat) : ℚ) from qpow2_natCast 2098] at hq1
      exact_mod_cast hq1
  have hrf : roundFrac n d =
      (if 2 ^ 2098 ≤ M * 2 ^ (U + 1074).toNat then none else some (M, U)) := by
    rw [roundFrac, if_neg hn.ne']
  by_cases hov : 2 ^ 2098 ≤ M * 2 ^ (U + 1074).toNat
  · left
    refine ⟨by rw [hrf, if_pos hov], ?_⟩
    rw [← hm]
    exact hover.mp hov
  · right
    exact ⟨M, by rw [hrf, if_neg hov], hm⟩

/-- A fraction whose value is a natural below `2^53` rounds exactly. -/
theorem roundFrac_intValue (N n d : Nat) (hN : N < 2 ^ 53) (hd : 0 < d)
    (hval : (n : ℚ) / d = (N : ℚ)) :
    ∃ m u, roundFrac n d = some (m, u) ∧ (m : ℚ) * qpow2 u = (N : ℚ) := by
  rcases Nat.eq_zero_or_pos N with rfl | hN0
  · have hn0 : n = 0 := by
      have h0 : n = 0 ∨ d = 0 := by simpa using hval
      omega
    subst hn0
    refine ⟨0, 0, by rw [roundFrac, if_pos rfl], by norm_num [qpow2_zero]⟩
  · have hn : 0 < n := by
      rcases Nat.eq_zero_or_pos n with rfl | h
      · exfalso
        rw [Nat.cast_zero, zero_div] at hval
        exact (Nat.cast_ne_zero.mpr hN0.ne' : ((N : Nat) : ℚ) ≠ 0) hval.symm
      · exact h
    obtain ⟨hle, hlt⟩ := floorLog2F_spec n d hn hd
    rw [hval] at hle hlt
    have hN53 : ((N : Nat) : ℚ) < qpow2 53 := by
      rw [show (53 : Int) = ((53 : Nat) : Int) from rfl, qpow2_natCast]
      exact_mod_cast hN
    have hE52 : floorLog2F n d ≤ 52 := by
      have := qpow2_lt_iff.mp (lt_of_le_of_lt hle hN53)
      omega
    have hE0 : 0 ≤ floorLog2F n d := by
      have h1 : qpow2 0 ≤ ((N : Nat) : ℚ) := by
        rw [qpow2_zero]
        exact_mod_cast hN0
      have := qpow2_lt_iff.mp (lt_of_le_of_lt h1 hlt)
      omega
    have hmax : max (floorLog2F n d - 52) (-1074) = floorLog2F n d - 52 :=
      max_eq_left (by omega)
    have hexact : roundToMultiple ((n : ℚ) / d) (floorLog2F n d - 52) = (N : ℚ) := by
      rw [hval]
      apply roundToMultiple_exact _ _ ((N : Int) * 2 ^ ((52 : Int) - floorLog2F n d).toNat)
      have htn : (((52 : Int) - floorLog2F n d).toNat : Int) = (52 : Int) - floorLog2F n d :=
        Int.toNat_of_nonneg (by omega)
      have hc : ((2 : ℚ) ^ ((52 : Int) - floorLog2F n d).toNat)
          = qpow2 ((52 : Int) - floorLog2F n d) := by
        obtain ⟨K, hK⟩ : ∃ K : Nat, (52 : Int) - floorLog2F n d = (K : Int) :=
          ⟨((52 : Int) - floorLog2F n d).toNat, htn.symm⟩
        have hKt : ((52 : Int) - floorLog2F n d).toNat = K := by omega
        rw [hKt, hK, qpow2_natCast]
        push_cast
        ring
      push_cast
      rw [mul_assoc, hc, ← qpow2_add]
      norm_num [qpow2_zero]
    rcases roundFrac_cases n d hn hd with ⟨hnone, hovr⟩ | ⟨m, hsome, hmval⟩
    · exfalso
      rw [hmax, hexact] at hovr
      have := qpow2_lt_iff.mp (lt_of_le_of_lt hovr hN53)
      omega
    · rw [hmax] at hsome hmval
      exact ⟨m, floorLog2F n d - 52, hsome, by rw [hmval, hexact]⟩

/-- Truncation of an exactly-representable natural value. -/
theorem truncOrOverflow_val (m : Nat) (u : Int) (N : Nat)
    (h : (m : ℚ) * qpow2 u = (N : ℚ)) :
    truncOrOverflow (some (m, u)) = .ok (N : Int) := by
  simp only [truncOrOverflow]
  rcases Int.le_or_lt 0 u with hu | hu
  · obtain ⟨k, rfl⟩ : ∃ k : Nat, u = (k : Int) := ⟨u.toNat, by omega⟩
    have h1 : (-(k : Int)).toNat = 0 := by omega
    have h2 : ((k : Int)).toNat = k := by omega
    rw [h1, h2, pow_zero, Nat.div_one]
    have hq : ((m * 2 ^ k : Nat) : ℚ) = (N : ℚ) := by
      rw [← h, qpow2_natCast]
      push_cast
      ring
    have hnat : m * 2 ^ k = N := by exact_mod_cast hq
    rw [hnat]
  · obtain ⟨k, rfl⟩ : ∃ k : Nat, u = -(k : Int) := ⟨(-u).toNat, by omega⟩
    have h1 : ((-(k : Int))).toNat = 0 := by omega
    have h2 : (-(-(k : Int))).toNat = k := by omega
    rw [h1, h2, pow_zero, mul_one]
    have hqp : qpow2 (-(k : Int)) = ((2 : ℚ) ^ k)⁻¹ := by
      rw [qpow2, zpow_neg, zpow_natCast]
    rw [hqp] at h
    have h2k : (0 : ℚ) < 2 ^ k := by positivity
    have hq : (m : ℚ) = ((N * 2 ^ k : Nat) : ℚ) := by
      push_cast
      field_simp at h
      linarith
    have hnat : m = N * 2 ^ k := by exact_mod_cast hq
    rw [hnat, Nat.mul_div_cancel _ (by positivity : 0 < 2 ^ k)]

/-- Truncation computes the floor of the represented value. -/
theorem truncOrOverflow_floor (m : Nat) (u : Int) :
    truncOrOverflow (some (m, u)) = .ok ⌊(m : ℚ) * qpow2 u⌋ := by
  simp only [truncOrOverflow]
  rcases Int.le_or_lt 0 u with hu | hu
  · obtain ⟨k, rfl⟩ : ∃ k : Nat, u = (k : Int) := ⟨u.toNat, by omega⟩
    have h1 : (-(k : Int)).toNat = 0 := by omega
    have h2 : ((k : Int)).toNat = k := by omega
    rw [h1, h2, pow_zero, Nat.div_one]
    rw [show (m : ℚ) * qpow2 (k : Int) = ((m * 2 ^ k : Nat) : ℚ) by
      rw [qpow2_natCast]; push_cast; ring]
    rw [Int.floor_natCast]
  · obtain ⟨k, rfl⟩ : ∃ k : Nat, u = -(k : Int) := ⟨(-u).toNat, by omega⟩
    have h1 : ((-(k : Int))).toNat = 0 := by omega
    have h2 : (-(-(k : Int))).toNat = k := by omega
    rw [h1, h2, pow_zero, mul_one]
    rw [show (m : ℚ) * qpow2 (-(k : Int)) = (m : ℚ) / ((2 ^ k : Nat) : ℚ) by
      rw [qpow2, zpow_neg, zpow_natCast, div_eq_mul_inv]; push_cast; ring]
    rw [natDiv_cast_floor]

theorem val_mul_frac (m : Nat) (u : Int) (c : Nat) :
    ((m * c * 2 ^ u.toNat : Nat) : ℚ) / ((2 ^ (-u).toNat : Nat) : ℚ)
      = ((m : ℚ) * qpow2 u) * c := by
  rw [show qpow2 u = ((2 ^ u.toNat : Nat) : ℚ) / ((2 ^ (-u).toNat : Nat) : ℚ)
    from qpow2_toNat_div u]
  have hz : ((2 ^ (-u).toNat : Nat) : ℚ) ≠ 0 := by positivity
  push_cast
  field_simp
  ring

theorem val_div_frac (m : Nat) (u : Int) (c : Nat) (hc : 0 < c) :
    ((m * 2 ^ u.toNat : Nat) : ℚ) / ((c * 2 ^ (-u).toNat : Nat) : ℚ)
      = ((m : ℚ) * qpow2 u) / c := by
  rw [show qpow2 u = ((2 ^ u.toNat : Nat) : ℚ) / ((2 ^ (-u).toNat : Nat) : ℚ)
    from qpow2_toNat_div u]
  have hz : ((2 ^ (-u).toNat : Nat) : ℚ) ≠ 0 := by positivity
  have hcz : ((c : Nat) : ℚ) ≠ 0 := Nat.cast_ne_zero.mpr hc.ne'
  push_cast
  field_simp
  all_goals try ring
  all_goals exact Or.inl trivial

/-- `float` of a pure digit numeral. -/
theorem floatOfNumeral_digits (ds : List Char) (hds : ∀ c ∈ ds, c.isDigit = true) :
    floatOfNumeral ds = roundFrac (natOfDigits ds) 1 := by
  simp only [floatOfNumeral, numeralValue_digits ds hds]

/-- `int(float(str(n)))` is the identity below `2^53`. -/
theorem trunc_exact (n : Nat) (h : n < 2 ^ 53) :
    truncOrOverflow (roundFrac n 1) = .ok ((n : Nat) : Int) := by
  obtain ⟨m, u, hs, hv⟩ := roundFrac_intValue n n 1 h (by norm_num) (by norm_num)
  rw [hs]
  exact truncOrOverflow_val m u n hv

/-- Multiplication by a unit factor is exact while the product stays
below `2^53`. -/
theorem truncMul_exact (n c : Nat) (hc : 0 < c) (h : n * c < 2 ^ 53) :
    truncOrOverflow (mulDouble (roundFrac n 1) c) = .ok ((n * c : Nat) : Int) := by
  have hn53 : n < 2 ^ 53 := lt_of_le_of_lt (Nat.le_mul_of_pos_right n hc) h
  obtain ⟨m, u, hs, hv⟩ := roundFrac_intValue n n 1 hn53 (by norm_num) (by norm_num)
  rw [hs]
  simp only [mulDouble]
  have hval2 : ((m * c * 2 ^ u.toNat : Nat) : ℚ) / ((2 ^ (-u).toNat : Nat) : ℚ)
      = ((n * c : Nat) : ℚ) := by
    rw [val_mul_frac, hv]
    push_cast
    ring
  obtain ⟨m2, u2, hs2, hv2⟩ := roundFrac_intValue (n * c) _ _ h (by positivity) hval2
  rw [hs2]
  exact truncOrOverflow_val _ _ _ hv2

/-- Division of an exactly representable natural by 60, rounded and then
truncated, is exactly `Nat` floor division: below `2^53` the quotient's
half-ulp is at most `1/64 < 1/60`, so rounding never crosses an integer
boundary. -/
theorem truncDiv_exact (n : Nat) (h : n < 2 ^ 53) :
    truncOrOverflow (divDouble (roundFrac n 1) 60) = .ok ((n / 60 : Nat) : Int) := by
  obtain ⟨m, u, hs, hv⟩ := roundFrac_intValue n n 1 h (by norm_num) (by norm_num)
  rw [hs]
  simp only [divDouble]
  have hval2 : ((m * 2 ^ u.toNat : Nat) : ℚ) / ((60 * 2 ^ (-u).toNat : Nat) : ℚ)
      = (n : ℚ) / 60 := by
    rw [val_div_frac _ _ _ (by norm_num), hv]
    norm_num
  rcases Nat.eq_zero_or_pos n with rfl | hn
  · have hm0 : m = 0 := by
      have hz : ((m : Nat) : ℚ) * qpow2 u = 0 := by rw [hv]; norm_num
      rcases mul_eq_zero.mp hz with h0 | h0
      · exact_mod_cast h0
      · exact absurd h0 (qpow2_pos u).ne'
    subst hm0
    rw [show (0 : Nat) * 2 ^ u.toNat = 0 by ring, roundFrac, if_pos rfl]
    rw [truncOrOverflow]
    norm_num
  · by_cases hf : n % 60 = 0
    · have hN2 : ((m * 2 ^ u.toNat : Nat) : ℚ) / ((60 * 2 ^ (-u).toNat : Nat) : ℚ)
          = ((n / 60 : Nat) : ℚ) := by
        rw [hval2]
        have hdvd : n / 60 * 60 = n := Nat.div_mul_cancel (Nat.dvd_of_mod_eq_zero hf)
        rw [eq_comm, eq_div_iff (by norm_num : (60 : ℚ) ≠ 0)]
        exact_mod_cast congrArg (fun k : Nat => (k : ℚ)) hdvd
      obtain ⟨m2, u2, hs2, hv2⟩ := roundFrac_intValue (n / 60) _ _
        (lt_of_le_of_lt (Nat.div_le_self n 60) h) (by positivity) hN2
      rw [hs2]
      exact truncOrOverflow_val _ _ _ hv2
    · have hmne : m ≠ 0 := by
        intro h0
        subst h0
        rw [Nat.cast_zero, zero_mul] at hv
        exact (Nat.cast_ne_zero.mpr hn.ne' : ((n : Nat) : ℚ) ≠ 0) hv.symm
      have hmpos : 0 < m * 2 ^ u.toNat := by
        have : 0 < m := Nat.pos_of_ne_zero hmne
        positivity
      have hDENpos : 0 < 60 * 2 ^ (-u).toNat := by positivity
      obtain ⟨hle, hlt⟩ := floorLog2F_spec (m * 2 ^ u.toNat) (60 * 2 ^ (-u).toNat)
        hmpos hDENpos
      rw [hval2] at hle hlt
      have hq48 : (n : ℚ) / 60 < qpow2 48 := by
        rw [show (48 : Int) = ((48 : Nat) : Int) from rfl, qpow2_natCast,
          div_lt_iff (by norm_num : (0:ℚ) < 60)]
        calc (n : ℚ) < ((2 ^ 53 : Nat) : ℚ) := by exact_mod_cast h
          _ ≤ ((2 ^ 48 : Nat) : ℚ) * 60 := by norm_num
      have hE47 : floorLog2F (m * 2 ^ u.toNat) (60 * 2 ^ (-u).toNat) ≤ 47 := by
        have := qpow2_lt_iff.mp (lt_of_le_of_lt hle hq48)
        omega
      have h64 : qpow2 (-6) = 1 / 64 := by norm_num [qpow2]
      have hq6 : qpow2 (-6) < (n : ℚ) / 60 := by
        rw [h64]
        have h1 : (1 : ℚ) ≤ (n : ℚ) := by exact_mod_cast hn
        rw [div_lt_div_iff (by norm_num) (by norm_num)]
        linarith
      have hEm6 : -6 ≤ floorLog2F (m * 2 ^ u.toNat) (60 * 2 ^ (-u).toNat) := by
        have := qpow2_lt_iff.mp (lt_trans hq6 hlt)
        omega
      have hmax : max (floorLog2F (m * 2 ^ u.toNat) (60 * 2 ^ (-u).toNat) - 52) (-1074)
          = floorLog2F (m * 2 ^ u.toNat) (60 * 2 ^ (-u).toNat) - 52 :=
        max_eq_left (by omega)
      set E := floorLog2F (m * 2 ^ u.toNat) (60 * 2 ^ (-u).toNat) with hEd
      have herr := roundToMultiple_err ((n : ℚ) / 60) (E - 52)
      have hhalf : qpow2 (E - 52) / 2 ≤ 1 / 64 := by
        have hstep : qpow2 (E - 52) ≤ qpow2 (-5) := qpow2_le_qpow2 (by omega)
        have h32 : qpow2 (-5) = 1 / 32 := by norm_num [qpow2]
        linarith
      obtain ⟨herr1, herr2⟩ := abs_le.mp herr
      have hnmf : (n : ℚ) = 60 * ((n / 60 : Nat) : ℚ) + ((n % 60 : Nat) : ℚ) := by
        exact_mod_cast congrArg (fun k : Nat => (k : ℚ)) (Nat.div_add_mod n 60).symm
      have hf1 : (1 : ℚ) ≤ ((n % 60 : Nat) : ℚ) := by
        have h1 := Nat.one_le_iff_ne_zero.mpr hf
        exact_mod_cast h1
      have hf59 : ((n % 60 : Nat) : ℚ) ≤ 59 := by
        have h59 : n % 60 ≤ 59 := by omega
        exact_mod_cast h59
      have hqm : (n : ℚ) / 60 = ((n / 60 : Nat) : ℚ) + ((n % 60 : Nat) : ℚ) / 60 := by
        field_simp
        linarith [hnmf]
      have hlb : ((n / 60 : Nat) : ℚ) < roundToMultiple ((n : ℚ) / 60) (E - 52) := by
        have hstep : ((n / 60 : Nat) : ℚ) + 1 / 60 ≤ (n : ℚ) / 60 := by
          rw [hqm]
          linarith
        linarith
      have hub : roundToMultiple ((n : ℚ) / 60) (E - 52) < ((n / 60 : Nat) : ℚ) + 1 := by
        have hstep : (n : ℚ) / 60 ≤ ((n / 60 : Nat) : ℚ) + 59 / 60 := by
          rw [hqm]
          linarith
        linarith
      have hfloor : ⌊roundToMultiple ((n : ℚ) / 60) (E - 52)⌋ = ((n / 60 : Nat) : Int) := by
        rw [Int.floor_eq_iff]
        refine ⟨?_, ?_⟩
        · rw [Int.cast_natCast]
          linarith
        · rw [Int.cast_natCast]
          linarith
      rcases roundFrac_cases (m * 2 ^ u.toNat) (60 * 2 ^ (-u).toNat) hmpos hDENpos with
        ⟨hnone, hovr⟩ | ⟨m2, hsome, hmval⟩
      · exfalso
        rw [← hEd] at hovr
        rw [hmax, hval2] at hovr
        have hover2 : roundToMultiple ((n : ℚ) / 60) (E - 52) < qpow2 1024 := by
          have h48 : (1 : ℚ) ≤ qpow2 48 := by
            rw [show (1 : ℚ) = qpow2 0 from qpow2_zero.symm]
            exact qpow2_le_qpow2 (by omega)
          have h49 : qpow2 48 + qpow2 48 ≤ qpow2 1024 := by
            have hdouble : qpow2 48 + qpow2 48 = qpow2 49 := by
              rw [show (49 : Int) = 1 + 48 by rfl, qpow2_add,
                show qpow2 1 = 2 by norm_num [qpow2]]
              ring
            rw [hdouble]
            exact qpow2_le_qpow2 (by omega)
          linarith
        exact absurd hovr (not_le.mpr hover2)
      · rw [← hEd] at hsome hmval
        rw [hmax] at hsome
        rw [hmax, hval2] at hmval
        rw [hsome, truncOrOverflow_floor m2 (E - 52), hmval, hfloor]


/-- Evaluation of the duration parser on a pure digit amount followed by an
arbitrary remainder starting with a non-digit, non-dot character. -/
theorem durationCore_digits (ds rest : List Char) (hne : ds ≠ [])
    (hds : ∀ c ∈ ds, c.isDigit = true)
    (hrest : ∀ c, rest.head? = some c → c.isDigit = false ∧ c ≠ '.') :
    durationCore (ds ++ rest) =
      (if memStr unitsDay (String.mk (((rest.dropWhile (fun c => c = ' ')).takeWhile
            (fun c => c ≠ '\n')).map Char.toLower)) then
        truncOrOverflow (mulDouble (floatOfNumeral ds) 1440)
       else if memStr unitsHour (String.mk (((rest.dropWhile (fun c => c = ' ')).takeWhile
            (fun c => c ≠ '\n')).map Char.toLower)) then
        truncOrOverflow (mulDouble (floatOfNumeral ds) 60)
       else if memStr unitsMinute (String.mk (((rest.dropWhile (fun c => c = ' ')).takeWhile
            (fun c => c ≠ '\n')).map Char.toLower)) then
        truncOrOverflow (floatOfNumeral ds)
       else if memStr unitsSecond (String.mk (((rest.dropWhile (fun c => c = ' ')).takeWhile
            (fun c => c ≠ '\n')).map Char.toLower)) then
        truncOrOverflow (divDouble (floatOfNumeral ds) 60)
       else .error .unknownUnit) := by
  simp only [durationCore, findNumeral_digits ds rest hne hds hrest]

set_option maxRecDepth 8000 in
/-- Claim C2, amended: within the regime where the doubles involved are
exact — amount and scaled result below `2^53` — the duration parser
converts recognized units to integer minutes with truncation: day units
multiply by 1440, hour units by 60, minute units (and the empty unit) by
1, second units divide by 60 truncating; in particular `"2h"` gives 120,
`"1 day"` gives 1440, `"90s"` gives 1 (truncation of 1.5), `"5"` gives
5, and `"1.5h"` gives 90.  Beyond `2^53` the binary64 rounding of
`float` makes results diverge from exact unit conversion (see the
counterexample at `"9007199254740993"`). -/
theorem duration_unit_conversion :
    (∀ ds : List Char, ds ≠ [] → (∀ c ∈ ds, c.isDigit = true) →
      (∀ u ∈ unitsDay, natOfDigits ds * 1440 < 2 ^ 53 →
        durationCore (ds ++ ' ' :: u.data) = .ok ((natOfDigits ds * 1440 : Nat) : Int)) ∧
      (∀ u ∈ unitsHour, natOfDigits ds * 60 < 2 ^ 53 →
        durationCore (ds ++ ' ' :: u.data) = .ok ((natOfDigits ds * 60 : Nat) : Int)) ∧
      (∀ u ∈ unitsMinute, natOfDigits ds < 2 ^ 53 →
        durationCore (ds ++ ' ' :: u.data) = .ok ((natOfDigits ds : Nat) : Int)) ∧
      (∀ u ∈ unitsSecond, natOfDigits ds < 2 ^ 53 →
        durationCore (ds ++ ' ' :: u.data) = .ok ((natOfDigits ds / 60 : Nat) : Int)) ∧
      (natOfDigits ds < 2 ^ 53 → durationCore ds = .ok ((natOfDigits ds : Nat) : Int))) ∧
    duration_string_to_minutes "2h" = .ok 120 ∧
    duration_string_to_minutes "1 day" = .ok 1440 ∧
    duration_string_to_minutes "90s" = .ok 1 ∧
    duration_string_to_minutes "5" = .ok 5 ∧
    duration_string_to_minutes "1.5h" = .ok 90 := by
  refine ⟨?_, by rfl, by rfl, by rfl, by rfl, by rfl⟩
  intro ds hne hds
  have hnil : natOfDigits ds < 2 ^ 53 → durationCore ds = .ok ((natOfDigits ds : Nat) : Int) := by
    intro hlt
    have h := durationCore_digits ds [] hne hds (fun c hc => by simp at hc)
    rw [List.append_nil] at h
    rw [h, floatOfNumeral_digits ds hds]
    exact trunc_exact _ hlt
  refine ⟨?_, ?_, ?_, ?_, hnil⟩ <;> intro u hu hlt
  · rcases show u = "d" ∨ u = "day" ∨ u = "days" by simpa [unitsDay] using hu with
      rfl | rfl | rfl <;>
      (rw [durationCore_digits ds _ hne hds (headSpaceOk _), floatOfNumeral_digits ds hds]
       exact truncMul_exact _ 1440 (by norm_num) hlt)
  · rcases show u = "h" ∨ u = "hour" ∨ u = "hours" by simpa [unitsHour] using hu with
      rfl | rfl | rfl <;>
      (rw [durationCore_digits ds _ hne hds (headSpaceOk _), floatOfNumeral_digits ds hds]
       exact truncMul_exact _ 60 (by norm_num) hlt)
  · rcases show u = "m" ∨ u = "min" ∨ u = "mins" ∨ u = "minute" ∨ u = "minutes" ∨ u = ""
        by simpa [unitsMinute] using hu with
      rfl | rfl | rfl | rfl | rfl | rfl <;>
      (rw [durationCore_digits ds _ hne hds (headSpaceOk _), floatOfNumeral_digits ds hds]
       exact trunc_exact _ hlt)
  · rcases show u = "s" ∨ u = "sec" ∨ u = "secs" ∨ u = "second" ∨ u = "seconds"
        by simpa [unitsSecond] using hu with
      rfl | rfl | rfl | rfl | rfl <;>
      (rw [durationCore_digits ds _ hne hds (headSpaceOk _), floatOfNumeral_digits ds hds]
       exact truncDiv_exact _ hlt)

set_option maxRecDepth 8000 in
theorem duration_unit_conversion_witness :
    durationCore (['4'] ++ ' ' :: "day".data) = .ok 5760 :=
  (duration_unit_conversion.1 ['4'] (by decide) (by decide)).1 "day" (by decide) (by decide)

set_option maxRecDepth 8000 in
/-- Claim C2 counterexample: the numeral `2^53 + 1` is not representable
as a double, so `float` rounds it down to `2^53` (ties to even) and the
parser returns 9007199254740992 minutes instead of the exact
9007199254740993 the claimed unit conversion demands. -/
theorem duration_large_numeral_counterexample :
    duration_string_to_minutes "9007199254740993" = .ok 9007199254740992 ∧
    (9007199254740992 : Int) ≠ 9007199254740993 := by
  exact ⟨by rfl, by decide⟩

/-- Claim C3: the duration parser fails with the invalid-duration error on
every input without any digit (such as `"abc"`), and with the
unknown-unit error when the unit token is not recognized (such as
`"5 fortnights"`). -/
theorem duration_error_cases :
    (∀ s : List Char, (∀ c ∈ s, c.isDigit = false) →
      durationCore s = .error .invalidDuration) ∧
    duration_string_to_minutes "abc" = .error .invalidDuration ∧
    (∀ ds u : List Char, ds ≠ [] → (∀ c ∈ ds, c.isDigit = true) →
      (∀ c ∈ u, c.isDigit = false ∧ c ≠ '.' ∧ c ≠ ' ' ∧ c ≠ '\n') →
      String.mk (u.map Char.toLower) ∉ recognizedUnits →
      durationCore (ds ++ u) = .error .unknownUnit) ∧
    duration_string_to_minutes "5 fortnights" = .error .unknownUnit := by
  refine ⟨?_, rfl, ?_, rfl⟩
  · intro s h
    simp only [durationCore, findNumeral_no_digit s h]
  · intro ds u hne hds hu hrec
    have hhead : ∀ c, u.head? = some c → c.isDigit = false ∧ c ≠ '.' := by
      intro c hc
      cases u with
      | nil => simp at hc
      | cons x xs =>
        obtain rfl : x = c := by simpa using hc
        exact ⟨(hu x (List.mem_cons_self x xs)).1, (hu x (List.mem_cons_self x xs)).2.1⟩
    rw [durationCore_digits ds u hne hds hhead]
    have hsp : u.dropWhile (fun c => decide (c = ' ')) = u := by
      cases u with
      | nil => rfl
      | cons x xs =>
        simp [List.dropWhile_cons, (hu x (List.mem_cons_self x xs)).2.2.1]
    have hnl : u.takeWhile (fun c => decide (c ≠ '\n')) = u :=
      takeWhile_of_all u (fun c hc => decide_eq_true (hu c hc).2.2.2)
    rw [hsp, hnl]
    have hmem : ∀ t : String, t ∈ recognizedUnits ↔
        (t ∈ unitsDay ∨ t ∈ unitsHour ∨ t ∈ unitsMinute ∨ t ∈ unitsSecond) := by
      intro t
      simp [recognizedUnits, List.mem_append, or_assoc]
    rw [hmem] at hrec
    push_neg at hrec
    rw [memStr_false hrec.1, memStr_false hrec.2.1, memStr_false hrec.2.2.1,
      memStr_false hrec.2.2.2]
    rfl

theorem duration_error_cases_witness :
    durationCore (['7'] ++ "weeks".data) = .error .unknownUnit :=
  duration_error_cases.2.2.1 ['7'] "weeks".data (by decide) (by decide) (by decide) (by decide)

set_option maxRecDepth 8000 in
/-- Claim C9 counterexample: `"-5h"` does parse, but the result is the
positive 300 minutes (the sign is not part of the matched numeral), not a
negative minute count as the claim states. -/
theorem duration_negative_counterexample :
    duration_string_to_minutes "-5h" = .ok 300 ∧
    ¬(∃ r : Int, duration_string_to_minutes "-5h" = .ok r ∧ r < 0) := by
  refine ⟨by rfl, ?_⟩
  rintro ⟨r, hr, hneg⟩
  have h300 : Except.ok (300 : Int) = Except.ok r := (by rfl : _ = Except.ok (300 : Int)).symm.trans hr
  have : (300 : Int) = r := by injection h300
  omega

/-- Every finite truncation result is the cast of a natural number, so
`int()` never yields a negative count here. -/
theorem truncOrOverflow_nonneg {x : Option (Nat × Int)} {r : Int}
    (h : truncOrOverflow x = .ok r) : 0 ≤ r := by
  cases x with
  | none => exact absurd h (by simp [truncOrOverflow])
  | some p =>
    obtain ⟨m, u⟩ := p
    simp only [truncOrOverflow] at h
    obtain rfl : _ = r := Except.ok.inj h
    exact Int.natCast_nonneg _

set_option maxRecDepth 8000 in
/-- Claim C9, amended: a duration string with a negative numeral such as
`"-5h"` parses successfully, but the minus sign is skipped by the numeral
regex, so the result is the non-negative minute count of the unsigned
numeral (300 for `"-5h"`); the parser never returns a negative count. -/
theorem duration_negative_sign_ignored :
    duration_string_to_minutes "-5h" = .ok 300 ∧
    (∀ (s : String) (r : Int), duration_string_to_minutes s = .ok r → 0 ≤ r) := by
  refine ⟨by rfl, ?_⟩
  intro s r h
  unfold duration_string_to_minutes durationCore at h
  split at h
  · exact Except.noConfusion h
  · dsimp only at h
    split at h
    · exact truncOrOverflow_nonneg h
    · split at h
      · exact truncOrOverflow_nonneg h
      · split at h
        · exact truncOrOverflow_nonneg h
        · split at h
          · exact truncOrOverflow_nonneg h
          · exact Except.noConfusion h

set_option maxRecDepth 8000 in
theorem duration_negative_sign_ignored_witness : (0 : Int) ≤ 120 :=
  duration_negative_sign_ignored.2 "2h" 120 (by rfl)

/-! ## Backend resolution (`dispatch_job`, dispatch.py:212-226) -/

/-- The hostname of the known GPU server (dispatch.py:216). -/
def gpuServerHostname : String := "gpu1-mat"

/-- The cluster domain marker searched for in the scheduler configuration
file `/etc/slurm/slurm.conf` (dispatch.py:221). -/
def slurmConfMarker : String := "slurm.vda.univie.ac.at"

/-- Backend resolution performed by `dispatch_job` (dispatch.py:212-226).
`hostname` models `os.uname()[1]`; `slurmConf` is the contents of
`/etc/slurm/slurm.conf` when that file exists, `none` otherwise;
`hpcSystem` is the value of the `HPC_SYSTEM` environment variable when it
is set, `none` otherwise. -/
def resolve_dispatch_system (system hostname : String) (slurmConf : Option String)
    (hpcSystem : Option String) : String :=
  if system = "auto" then
    let viaProbes :=
      if hostname = gpuServerHostname then "local_background"
      else
        match slurmConf with
        | some content => if containsSubS slurmConfMarker content then "dgx" else "local"
        | none => "local"
    match hpcSystem with
    | some v => toLowerS v
    | none => viaProbes
  else system

/-- Claim C1: with backend "auto", resolution defaults to "local", picks
"local_background" when the hostname is the GPU server, otherwise "dgx"
when the scheduler configuration file exists and contains the cluster
domain marker; the HPC_SYSTEM override, lower-cased, wins over both
probes — in particular "vsc4" is returned even when the hostname and the
marker both match. -/
theorem backend_auto_resolution :
    (∀ (hostname : String) (slurmConf : Option String),
      resolve_dispatch_system "auto" hostname slurmConf none =
        if hostname = gpuServerHostname then "local_background"
        else if (slurmConf.map (fun c => containsSubS slurmConfMarker c)).getD false then "dgx"
        else "local") ∧
    (∀ (hostname : String) (slurmConf : Option String) (v : String),
      resolve_dispatch_system "auto" hostname slurmConf (some v) = toLowerS v) ∧
    resolve_dispatch_system "auto" gpuServerHostname
      (some "SlurmctldHost=slurm.vda.univie.ac.at") (some "vsc4") = "vsc4" := by
  refine ⟨?_, ?_, rfl⟩
  · intro hostname slurmConf
    cases slurmConf with
    | none => simp [resolve_dispatch_system]
    | some c => simp [resolve_dispatch_system]
  · intro hostname slurmConf v
    simp [resolve_dispatch_system]

/-! ## Filesystem model for the directory-manager functions

The filesystem is a finite listing of directory paths and file paths, a
path being the list of its components.  `shutil.rmtree` and
`os.makedirs` are modelled after their documented behaviour; failures of
`os.makedirs` not tied to the target path itself (permissions, an
ancestor that is a file) are outside the model. -/

/-- Boolean membership of a path in a path list. -/
def elemPath (l : List (List String)) (p : List String) : Bool :=
  l.any (fun q => q == p)

/-- `isPrefL p q`: the path `p` is an ancestor of `q` or `q` itself. -/
def isPrefL : List String → List String → Bool
  | [], _ => true
  | _ :: _, [] => false
  | a :: as, b :: bs => a == b && isPrefL as bs

structure FS where
  dirs : List (List String)
  files : List (List String)
deriving DecidableEq

def FS.isdir (fs : FS) (p : List String) : Bool := elemPath fs.dirs p

/-- Model of `os.path.exists`. -/
def FS.pathExists (fs : FS) (p : List String) : Bool :=
  elemPath fs.dirs p || elemPath fs.files p

inductive FSError where
  | fileExists
deriving DecidableEq

/-- Model of `shutil.rmtree p`: removes `p` and everything below it. -/
def rmtree (fs : FS) (p : List String) : FS :=
  ⟨fs.dirs.filter (fun q => !(isPrefL p q)), fs.files.filter (fun q => !(isPrefL p q))⟩

/-- The directory entries `os.makedirs p` creates: every prefix of `p`. -/
def addDirs (fs : FS) (p : List String) : FS :=
  ⟨fs.dirs ++ p.inits, fs.files⟩

/-- Model of `os.makedirs p` (without `exist_ok`): raises `FileExistsError`
when the target already exists (as a directory or as a file), otherwise
creates the directory and its missing ancestors. -/
def os_makedirs (fs : FS) (p : List String) : Except FSError FS :=
  if fs.pathExists p then .error .fileExists else .ok (addDirs fs p)

/-- `setup_experiment_dir` (dispatch.py:47-54).  The result pairs the
Python return value (or the raised error) with the filesystem after the
call. -/
def setup_experiment_dir (fs : FS) (directory : List String) (force : Bool) :
    Except FSError (List String) × FS :=
  if fs.isdir directory then
    if force then
      let fs1 := rmtree fs directory
      match os_makedirs fs1 directory with
      | .ok fs2 => (.ok directory, fs2)
      | .error e => (.error e, fs1)
    else (.error .fileExists, fs)
  else
    match os_makedirs fs directory with
    | .ok fs2 => (.ok directory, fs2)
    | .error e => (.error e, fs)

/-- `setup_job_dir` (dispatch.py:57-63): returns the job directory path,
whether the already-exists warning was logged, and the filesystem after
the call. -/
def setup_job_dir (fs : FS) (parent_dir : List String) (name : String) :
    Except FSError ((List String × Bool) × FS) :=
  let job_dir := parent_dir ++ [name]
  if fs.pathExists job_dir then .ok ((job_dir, true), fs)
  else
    match os_makedirs fs job_dir with
    | .ok fs2 => .ok ((job_dir, false), fs2)
    | .error e => .error e

/-! ### Path lemmas -/

theorem elemPath_iff {l : List (List String)} {p : List String} :
    elemPath l p = true ↔ p ∈ l := by
  simp [elemPath, List.any_eq_true]

theorem elemPath_false {l : List (List String)} {p : List String} (h : p ∉ l) :
    elemPath l p = false := by
  rw [← Bool.not_eq_true, elemPath_iff]
  exact h

theorem isPrefL_refl (p : List String) : isPrefL p p = true := by
  induction p with
  | nil => rfl
  | cons a as ih => simp [isPrefL, ih]

theorem isPrefL_append (p t : List String) : isPrefL p (p ++ t) = true := by
  induction p with
  | nil => rfl
  | cons a as ih => simp [isPrefL, ih]

theorem isPrefL_iff {p q : List String} : isPrefL p q = true ↔ ∃ t, q = p ++ t := by
  constructor
  · intro h
    induction p generalizing q with
    | nil => exact ⟨q, rfl⟩
    | cons a as ih =>
      cases q with
      | nil => exact absurd h (by simp [isPrefL])
      | cons b bs =>
        simp only [isPrefL, Bool.and_eq_true, beq_iff_eq] at h
        obtain ⟨t, ht⟩ := ih h.2
        exact ⟨t, by simp [h.1, ht]⟩
  · rintro ⟨t, rfl⟩
    exact isPrefL_append p t

theorem pathExists_addDirs_self (fs : FS) (p : List String) :
    (addDirs fs p).pathExists p = true := by
  have hmem : p ∈ p.inits := (List.mem_inits p p).mpr ⟨[], List.append_nil p⟩
  simp [addDirs, FS.pathExists, elemPath, List.any_eq_true]

theorem pathExists_rmtree_self (fs : FS) (p : List String) :
    (rmtree fs p).pathExists p = false := by
  have h1 : p ∉ fs.dirs.filter (fun q => !(isPrefL p q)) := by
    intro hm
    simp [List.mem_filter, isPrefL_refl] at hm
  have h2 : p ∉ fs.files.filter (fun q => !(isPrefL p q)) := by
    intro hm
    simp [List.mem_filter, isPrefL_refl] at hm
  simp [rmtree, FS.pathExists, elemPath_false h1, elemPath_false h2]

/-- Claim C5, amended: on every existing path `p`, `setup_experiment_dir`
without `force` fails with the file-exists error and leaves the
filesystem unmodified; with `force`, when `p` is an existing directory,
it destroys the tree below `p` and yields an empty directory at `p`
(when `p` exists but is not a directory the forced call fails instead,
see the counterexample). -/
theorem experiment_dir_create :
    (∀ (fs : FS) (p : List String), fs.pathExists p = true →
      setup_experiment_dir fs p false = (.error .fileExists, fs)) ∧
    (∀ (fs : FS) (p : List String), fs.isdir p = true →
      (setup_experiment_dir fs p true).1 = .ok p ∧
      (setup_experiment_dir fs p true).2.isdir p = true ∧
      (∀ q t : List String, t ≠ [] → q = p ++ t →
        (setup_experiment_dir fs p true).2.pathExists q = false)) := by
  constructor
  · intro fs p h
    by_cases hd : fs.isdir p = true
    · simp [setup_experiment_dir, hd]
    · have hdf : fs.isdir p = false := by
        rw [← Bool.not_eq_true]
        exact hd
      simp [setup_experiment_dir, hdf, os_makedirs, h]
  · intro fs p h
    have hmk : os_makedirs (rmtree fs p) p = .ok (addDirs (rmtree fs p) p) := by
      simp [os_makedirs, pathExists_rmtree_self]
    have hsetup : setup_experiment_dir fs p true = (.ok p, addDirs (rmtree fs p) p) := by
      simp [setup_experiment_dir, h, hmk]
    refine ⟨by rw [hsetup], ?_, ?_⟩
    · rw [hsetup]
      have hmem : p ∈ p.inits := (List.mem_inits p p).mpr ⟨[], List.append_nil p⟩
      simp [addDirs, rmtree, FS.isdir, elemPath, List.any_eq_true]
    · rintro q t ht rfl
      rw [hsetup]
      have hlen : ∀ l : List (List String), p ++ t ∉ l.filter (fun q => !(isPrefL p q)) := by
        intro l hm
        rw [List.mem_filter] at hm
        rw [isPrefL_append] at hm
        exact absurd hm.2 (by simp)
      have hinit : p ++ t ∉ p.inits := by
        intro hm
        obtain ⟨s, hs⟩ := (List.mem_inits _ _).mp hm
        have := congrArg List.length hs
        simp at this
        exact ht this.1
      have hd : p ++ t ∉ (rmtree fs p).dirs ++ p.inits := by
        intro hm
        rcases List.mem_append.mp hm with hm | hm
        · exact hlen fs.dirs hm
        · exact hinit hm
      simp [addDirs, rmtree, FS.pathExists]
      constructor
      · have := elemPath_false hd
        simpa [rmtree, addDirs] using this
      · have := elemPath_false (hlen fs.files)
        simpa using this

theorem experiment_dir_create_witness :
    (setup_experiment_dir ⟨[["e"], ["e", "sub"]], [["e", "sub", "data.txt"]]⟩
      ["e"] true).2.pathExists ["e", "sub"] = false :=
  (experiment_dir_create.2 ⟨[["e"], ["e", "sub"]], [["e", "sub", "data.txt"]]⟩
    ["e"] (by rfl)).2.2 ["e", "sub"] ["sub"] (by decide) (by decide)

/-- Claim C5 counterexample: a path that exists as a file, not a
directory.  The forced call fails with the file-exists error and yields
no directory, contradicting the claim that force succeeds for every
existing path regardless of prior contents. -/
theorem experiment_dir_counterexample :
    (FS.mk [] [["exp"]]).pathExists ["exp"] = true ∧
    (setup_experiment_dir (FS.mk [] [["exp"]]) ["exp"] true).1 = .error .fileExists ∧
    (setup_experiment_dir (FS.mk [] [["exp"]]) ["exp"] true).2.isdir ["exp"] = false :=
  ⟨rfl, rfl, rfl⟩

/-- Claim C7: creating a job directory twice with the same arguments
returns the same path both times and never raises; the second call finds
the directory in place, emits the warning, and leaves the filesystem
unchanged. -/
theorem job_dir_idempotent :
    ∀ (fs : FS) (parent_dir : List String) (name : String), ∃ w1 fs1,
      setup_job_dir fs parent_dir name = .ok ((parent_dir ++ [name], w1), fs1) ∧
      setup_job_dir fs1 parent_dir name = .ok ((parent_dir ++ [name], true), fs1) := by
  intro fs parent_dir name
  by_cases h : fs.pathExists (parent_dir ++ [name]) = true
  · exact ⟨true, fs, by simp [setup_job_dir, h], by simp [setup_job_dir, h]⟩
  · have hf : fs.pathExists (parent_dir ++ [name]) = false := by
      rw [← Bool.not_eq_true]
      exact h
    refine ⟨false, addDirs fs (parent_dir ++ [name]), ?_, ?_⟩
    · simp [setup_job_dir, hf, os_makedirs]
    · simp [setup_job_dir, pathExists_addDirs_self]

/-! ## Run discovery (`find_runs_rec`, dispatch.py:29-35) -/

/-- `is_checkpoint` (dispatch.py:16-17): `'chkpt'` occurs in the
lower-cased basename. -/
def is_checkpoint (p : List String) : Bool :=
  containsSub "chkpt".data ((p.getLastD "").data.map Char.toLower)

/-- `contains_run` (dispatch.py:20-26): both artifact files are present. -/
def contains_run (fs : FS) (p : List String) : Bool :=
  fs.pathExists (p ++ ["full_config.yml"]) && fs.pathExists (p ++ ["results.bz2"])

/-- Model of `os.walk path`: the start directory and every directory
strictly below it, in listing order; empty when the start directory does
not exist. -/
def os_walk (fs : FS) (path : List String) : List (List String) :=
  if fs.isdir path then
    path :: fs.dirs.filter (fun p => isPrefL path p && !(p == path))
  else []

/-- `find_runs_rec` (dispatch.py:29-35); the empty relative path stands
for `os.path.relpath`'s `"."`. -/
def find_runs_rec (fs : FS) (path : List String)
    (include_checkpoints : Bool := false) : List (List String) :=
  ((os_walk fs path).filter
      (fun p => contains_run fs p && (include_checkpoints || !(is_checkpoint p)))).map
    (fun p => p.drop path.length)

/-- The run set as the claim words it (the specification side of C4): a
relative path `r` is reported exactly when `path ++ r` is a directory
holding both artifact files and is not a checkpoint directory, unless
checkpoints are included. -/
def findRunsSpec (fs : FS) (path : List String) (inc : Bool) (r : List String) : Prop :=
  fs.isdir (path ++ r) = true ∧ contains_run fs (path ++ r) = true ∧
    (inc = true ∨ is_checkpoint (path ++ r) = false)

/-- The worked example of the claim: `runA` is complete, `runB` lacks the
results file, `runB_chkpt5` is complete but named as a checkpoint. -/
def fsRunsExample : FS :=
  ⟨[["root"], ["root", "runA"], ["root", "runB"], ["root", "runB_chkpt5"]],
   [["root", "runA", "full_config.yml"], ["root", "runA", "results.bz2"],
    ["root", "runB", "full_config.yml"],
    ["root", "runB_chkpt5", "full_config.yml"], ["root", "runB_chkpt5", "results.bz2"]]⟩

/-- Claim C4: `find_runs_rec` returns exactly the directories under the
root (as relative paths) containing both artifact files, excluding
checkpoint-named ones unless requested; on the worked example the
default call returns exactly `runA` and the checkpoint-including call
also returns `runB_chkpt5`. -/
theorem find_runs_exact :
    (∀ (fs : FS) (path : List String) (inc : Bool) (r : List String),
      fs.isdir path = true →
      (r ∈ find_runs_rec fs path inc ↔ findRunsSpec fs path inc r)) ∧
    find_runs_rec fsRunsExample ["root"] = [["runA"]] ∧
    find_runs_rec fsRunsExample ["root"] true = [["runA"], ["runB_chkpt5"]] := by
  refine ⟨?_, rfl, rfl⟩
  intro fs path inc r hroot
  constructor
  · intro hr
    simp only [find_runs_rec, List.mem_map, List.mem_filter] at hr
    obtain ⟨p, ⟨hwalk, hprop⟩, hdrop⟩ := hr
    have hpref : isPrefL path p = true := by
      simp only [os_walk, hroot, if_true, List.mem_cons, List.mem_filter] at hwalk
      rcases hwalk with rfl | ⟨_, hp⟩
      · exact isPrefL_refl p
      · exact (Bool.and_eq_true ..).mp hp |>.1
    obtain ⟨t, rfl⟩ := isPrefL_iff.mp hpref
    have ht : t = r := by
      rw [← hdrop, List.drop_left]
    subst ht
    have hdir : fs.isdir (path ++ t) = true := by
      simp only [os_walk, hroot, if_true, List.mem_cons, List.mem_filter] at hwalk
      rcases hwalk with heq | ⟨hp, _⟩
      · rw [heq]
        exact hroot
      · exact elemPath_iff.mpr hp
    rcases Bool.and_eq_true .. |>.mp hprop with ⟨hrun, hchk⟩
    refine ⟨hdir, hrun, ?_⟩
    rcases Bool.or_eq_true .. |>.mp hchk with hinc | hnot
    · exact Or.inl hinc
    · exact Or.inr (by simpa using hnot)
  · rintro ⟨hdir, hrun, hchk⟩
    simp only [find_runs_rec, List.mem_map, List.mem_filter]
    refine ⟨path ++ r, ⟨?_, ?_⟩, List.drop_left path r⟩
    · simp only [os_walk, hroot, if_true, List.mem_cons, List.mem_filter]
      by_cases hr0 : r = []
      · subst hr0
        exact Or.inl (List.append_nil path)
      · refine Or.inr ⟨elemPath_iff.mp hdir, ?_⟩
        rw [isPrefL_append]
        have hne : ¬(path ++ r = path) := by
          intro heq
          apply hr0
          have := congrArg List.length heq
          simp at this
          exact this
        simp [hne]
    · rw [hrun]
      rcases hchk with hinc | hnot
      · simp [hinc]
      · simp [hnot]

theorem find_runs_exact_witness :
    findRunsSpec fsRunsExample ["root"] false ["runA"] :=
  (find_runs_exact.1 fsRunsExample ["root"] false ["runA"] (by rfl)).mp (by decide)

/-! ## Job-script templates (dispatch.py:162-209)

The templates are transcribed verbatim from the three f-strings; the
chunking of the literal parts is chosen so that each directive the
claims mention is an explicit concatenation factor (string concatenation
is associative, so the rendered text is identical to the source
template).  `{time}` renders the Python int as decimal, modelled by
`toString` on `Int`. -/

/-- `get_jobfile_content_vsc4` (dispatch.py:162-171). -/
def get_jobfile_content_vsc4 (command jobname queue : String) (time : Int) : String :=
  "#!/bin/bash\n" ++ "#SBATCH -J " ++ jobname ++ "\n"
    ++ "#SBATCH -N 1" ++ "\n"
    ++ "#SBATCH --partition " ++ queue ++ "\n"
    ++ "#SBATCH --qos " ++ queue ++ "\n"
    ++ "#SBATCH --output CPU.out" ++ "\n"
    ++ "#SBATCH --time " ++ toString time ++ "\n"
    ++ "module purge" ++ ("\n" ++ command)

/-- `get_jobfile_content_vsc3` (dispatch.py:174-189). -/
def get_jobfile_content_vsc3 (command jobname queue : String) (time : Int)
    (conda_env : String) : String :=
  "#!/bin/bash\n" ++ "#SBATCH -J " ++ jobname ++ "\n"
    ++ (if queue ≠ "gpu_a40dual" then "#SBATCH -N 1" else "") ++ "\n"
    ++ "#SBATCH --partition " ++ queue ++ "\n"
    ++ "#SBATCH --qos " ++ queue ++ "\n"
    ++ "#SBATCH --output GPU.out" ++ "\n"
    ++ "#SBATCH --time " ++ toString time ++ "\n"
    ++ "#SBATCH --gres=gpu:1" ++ "\n\n"
    ++ "module purge" ++ "\n"
    ++ "module load cuda/11.2.2" ++ "\n"
    ++ "source /opt/sw/x86_64/glibc-2.17/ivybridge-ep/anaconda3/5.3.0/etc/profile.d/conda.sh" ++ "\n"
    ++ "conda activate " ++ conda_env ++ "\n"
    ++ "export WANDB_DIR=\"$\x7bHOME\x7d/tmp\"" ++ ("\n" ++ command)

/-- `get_jobfile_content_dgx` (dispatch.py:192-209); note the trailing
space after `conda.sh` in the source template. -/
def get_jobfile_content_dgx (command jobname jobdir : String) (time : Int)
    (conda_env src_dir : String) : String :=
  "#!/bin/bash\n" ++ "#SBATCH -J " ++ jobname ++ "\n"
    ++ "#SBATCH -N 1" ++ "\n"
    ++ "#SBATCH --output GPU.out" ++ "\n"
    ++ "#SBATCH --time " ++ toString time ++ "\n"
    ++ "#SBATCH --gres=gpu:1" ++ "\n"
    ++ "#SBATCH --chdir " ++ jobdir ++ "\n\n"
    ++ "export CONDA_ENVS_PATH=\"/nfs$HOME/.conda/envs:$CONDA_ENVS_PATH\"" ++ "\n"
    ++ "source /opt/anaconda3/etc/profile.d/conda.sh " ++ "\n"
    ++ "conda activate " ++ conda_env ++ "\n"
    ++ "export PYTHONPATH=\"" ++ src_dir ++ "\"" ++ "\n"
    ++ "export WANDB_API_KEY=$(grep -Po \"(?<=password ).*\" /nfs$HOME/.netrc)" ++ "\n"
    ++ "export CUDA_VISIBLE_DEVICES=\"0\"" ++ "\n"
    ++ "export WANDB_DIR=\"/nfs$\x7bHOME\x7d/tmp\"" ++ "\n"
    ++ "export XLA_FLAGS=--xla_gpu_force_compilation_parallelism=1" ++ ("\n" ++ command)

/-! ### Substring lemmas for the rendered scripts -/

theorem hasPrefCL_self_append (n t : List Char) : hasPrefCL n (n ++ t) = true := by
  induction n with
  | nil => rfl
  | cons a as ih => simp [hasPrefCL, ih]

theorem hasPrefCL_app_both (a b c : List Char) :
    hasPrefCL (a ++ b) (a ++ (b ++ c)) = true := by
  induction a with
  | nil => exact hasPrefCL_self_append b c
  | cons x xs ih => simp [hasPrefCL, ih]

theorem containsSub_of_pref {n hay : List Char} (h : hasPrefCL n hay = true) :
    containsSub n hay = true := by
  cases hay with
  | nil => simpa [containsSub] using h
  | cons c cs => simp [containsSub, h]

theorem containsSub_append_left (n pre hay : List Char) (h : containsSub n hay = true) :
    containsSub n (pre ++ hay) = true := by
  induction pre with
  | nil => simpa using h
  | cons c cs ih => simp [containsSub, ih]

theorem containsSubS_appL (n a b : String) (h : containsSubS n b = true) :
    containsSubS n (a ++ b) = true := by
  simp only [containsSubS, String.data_append]
  exact containsSub_append_left n.data a.data b.data h

theorem containsSubS_self_app (n b : String) : containsSubS n (n ++ b) = true := by
  simp only [containsSubS, String.data_append]
  exact containsSub_of_pref (hasPrefCL_self_append n.data b.data)

theorem containsSubS_self2_app (n1 n2 b : String) :
    containsSubS (n1 ++ n2) (n1 ++ (n2 ++ b)) = true := by
  simp only [containsSubS, String.data_append]
  exact containsSub_of_pref (hasPrefCL_app_both n1.data n2.data b.data)

theorem lastLineCL_append (pre cmd : List Char) (h : '\n' ∉ cmd) :
    lastLineCL (pre ++ '\n' :: cmd) = cmd := by
  have hall : ∀ c ∈ cmd.reverse, (decide (c ≠ '\n')) = true := by
    intro c hc
    exact decide_eq_true (fun he => h (he ▸ List.mem_reverse.mp hc))
  unfold lastLineCL
  rw [List.reverse_append, List.reverse_cons, List.append_assoc,
    takeWhile_append_of_all cmd.reverse _ hall]
  simp [List.takeWhile_cons]

theorem lastLineS_append (pre cmd : String) (h : '\n' ∉ cmd.data) :
    lastLineS (pre ++ ("\n" ++ cmd)) = cmd := by
  have hdata : (pre ++ ("\n" ++ cmd)).data = pre.data ++ '\n' :: cmd.data := by
    simp [String.data_append]
  unfold lastLineS
  rw [hdata, lastLineCL_append pre.data cmd.data h]

/-- Claim C6, amended: every rendered job script embeds the job name, the
wall-clock time in minutes, and an output-redirection directive, and ends
with a single trailing line that is the verbatim command; the node-count
directive `#SBATCH -N 1` is embedded unconditionally by the vsc4 and dgx
renderers, and by the vsc3 renderer exactly for queues other than
`gpu_a40dual` (for that queue the vsc3 template renders an empty line in
its place, see the counterexample). -/
theorem jobfile_contents (command jobname queue conda_env jobdir src_dir : String)
    (time : Int) (hcmd : '\n' ∉ command.data) :
    (containsSubS jobname (get_jobfile_content_vsc4 command jobname queue time) = true ∧
     containsSubS "#SBATCH -N 1" (get_jobfile_content_vsc4 command jobname queue time) = true ∧
     containsSubS ("#SBATCH --time " ++ toString time)
       (get_jobfile_content_vsc4 command jobname queue time) = true ∧
     containsSubS "#SBATCH --output CPU.out"
       (get_jobfile_content_vsc4 command jobname queue time) = true ∧
     lastLineS (get_jobfile_content_vsc4 command jobname queue time) = command) ∧
    (containsSubS jobname (get_jobfile_content_vsc3 command jobname queue time conda_env) = true ∧
     (queue ≠ "gpu_a40dual" →
       containsSubS "#SBATCH -N 1"
         (get_jobfile_content_vsc3 command jobname queue time conda_env) = true) ∧
     containsSubS ("#SBATCH --time " ++ toString time)
       (get_jobfile_content_vsc3 command jobname queue time conda_env) = true ∧
     containsSubS "#SBATCH --output GPU.out"
       (get_jobfile_content_vsc3 command jobname queue time conda_env) = true ∧
     lastLineS (get_jobfile_content_vsc3 command jobname queue time conda_env) = command) ∧
    (containsSubS jobname (get_jobfile_content_dgx command jobname jobdir time conda_env src_dir) = true ∧
     containsSubS "#SBATCH -N 1"
       (get_jobfile_content_dgx command jobname jobdir time conda_env src_dir) = true ∧
     containsSubS ("#SBATCH --time " ++ toString time)
       (get_jobfile_content_dgx command jobname jobdir time conda_env src_dir) = true ∧
     containsSubS "#SBATCH --output GPU.out"
       (get_jobfile_content_dgx command jobname jobdir time conda_env src_dir) = true ∧
     lastLineS (get_jobfile_content_dgx command jobname jobdir time conda_env src_dir) = command) := by
  refine ⟨⟨?_, ?_, ?_, ?_, ?_⟩, ⟨?_, ?_, ?_, ?_, ?_⟩, ⟨?_, ?_, ?_, ?_, ?_⟩⟩
  · unfold get_jobfile_content_vsc4
    simp only [String.append_assoc]
    iterate 2 apply containsSubS_appL
    exact containsSubS_self_app _ _
  · unfold get_jobfile_content_vsc4
    simp only [String.append_assoc]
    iterate 4 apply containsSubS_appL
    exact containsSubS_self_app _ _
  · unfold get_jobfile_content_vsc4
    simp only [String.append_assoc]
    iterate 14 apply containsSubS_appL
    exact containsSubS_self2_app _ _ _
  · unfold get_jobfile_content_vsc4
    simp only [String.append_assoc]
    iterate 12 apply containsSubS_appL
    exact containsSubS_self_app _ _
  · exact lastLineS_append _ command hcmd
  · unfold get_jobfile_content_vsc3
    simp only [String.append_assoc]
    iterate 2 apply containsSubS_appL
    exact containsSubS_self_app _ _
  · intro hq
    unfold get_jobfile_content_vsc3
    rw [if_pos hq]
    simp only [String.append_assoc]
    iterate 4 apply containsSubS_appL
    exact containsSubS_self_app _ _
  · unfold get_jobfile_content_vsc3
    simp only [String.append_assoc]
    iterate 14 apply containsSubS_appL
    exact containsSubS_self2_app _ _ _
  · unfold get_jobfile_content_vsc3
    simp only [String.append_assoc]
    iterate 12 apply containsSubS_appL
    exact containsSubS_self_app _ _
  · exact lastLineS_append _ command hcmd
  · unfold get_jobfile_content_dgx
    simp only [String.append_assoc]
    iterate 2 apply containsSubS_appL
    exact containsSubS_self_app _ _
  · unfold get_jobfile_content_dgx
    simp only [String.append_assoc]
    iterate 4 apply containsSubS_appL
    exact containsSubS_self_app _ _
  · unfold get_jobfile_content_dgx
    simp only [String.append_assoc]
    iterate 8 apply containsSubS_appL
    exact containsSubS_self2_app _ _ _
  · unfold get_jobfile_content_dgx
    simp only [String.append_assoc]
    iterate 6 apply containsSubS_appL
    exact containsSubS_self_app _ _
  · exact lastLineS_append _ command hcmd

theorem jobfile_contents_witness :
    lastLineS (get_jobfile_content_vsc4 "python main.py" "exp1" "mem_0096" 120)
      = "python main.py" :=
  (jobfile_contents "python main.py" "exp1" "mem_0096" "dwenv" "jd" "sd" 120
    (by decide)).1.2.2.2.2

set_option maxRecDepth 4000 in
/-- Claim C6 counterexample: with queue `gpu_a40dual`, the first HPC
renderer emits no node-count directive at all, so the claim that every
renderer embeds one for every parameter set fails. -/
theorem jobfile_node_counterexample :
    containsSubS "#SBATCH -N"
      (get_jobfile_content_vsc3 "python main.py" "exp1" "gpu_a40dual" 120 "dwenv") = false := by
  rfl

/-! ## Path rewriting (`append_nfs_to_fullpaths`, dispatch.py:116-121) -/

/-- Model of Python `r.startswith("/")`. -/
def startsWithSlash (r : String) : Bool :=
  match r.data with
  | [] => false
  | c :: _ => c == '/'

/-- `append_nfs_to_fullpaths` (dispatch.py:116-121) as a pure function;
`px` models the `os.path.exists` probe. -/
def append_nfs_to_fullpaths (px : String → Bool) (command : List String) : List String :=
  command.map (fun r => if startsWithSlash r && px r then "/nfs" ++ r else r)

/-- Claim C8: every token that is an absolute path to an existing entry
gets the fixed `/nfs` net prefix; every relative or non-existing token is
left unchanged. -/
theorem append_nfs_rewrites (px : String → Bool) (command : List String) (i : Nat)
    (h : i < command.length) :
    ((startsWithSlash (command.getD i "") = true ∧ px (command.getD i "") = true) →
      (append_nfs_to_fullpaths px command).getD i "" = "/nfs" ++ command.getD i "") ∧
    ((startsWithSlash (command.getD i "") = false ∨ px (command.getD i "") = false) →
      (append_nfs_to_fullpaths px command).getD i "" = command.getD i "") := by
  have hget : command.getD i "" = command[i] := by
    rw [List.getD_eq_getElem?_getD, List.getElem?_eq_getElem h]
    rfl
  have hmap : (append_nfs_to_fullpaths px command).getD i ""
      = (if startsWithSlash command[i] && px command[i]
         then "/nfs" ++ command[i] else command[i]) := by
    rw [append_nfs_to_fullpaths, List.getD_eq_getElem?_getD, List.getElem?_map,
      List.getElem?_eq_getElem h]
    rfl
  constructor
  · rintro ⟨h1, h2⟩
    rw [hget] at h1 h2 ⊢
    rw [hmap, h1, h2]
    rfl
  · intro hcase
    rw [hget] at hcase ⊢
    rw [hmap]
    rcases hcase with h1 | h1 <;> simp [h1]

theorem append_nfs_rewrites_witness :
    (append_nfs_to_fullpaths (fun s => s == "/data/input.txt")
      ["/data/input.txt", "run.py"]).getD 0 "" = "/nfs/data/input.txt" :=
  (append_nfs_rewrites (fun s => s == "/data/input.txt")
    ["/data/input.txt", "run.py"] 0 (by decide)).1 ⟨by rfl, by rfl⟩

/-! ## Heap-level model for the deep-copy behaviour (claim C10)

The claim is about mutation, so the Python heap is made explicit: a
store of list objects, references being store indices. -/

structure Store where
  arrays : List (List String)
deriving DecidableEq

def Store.get (st : Store) (r : Nat) : List String := st.arrays.getD r []

def Store.setRef (st : Store) (r : Nat) (v : List String) : Store := ⟨st.arrays.set r v⟩

/-- `copy.deepcopy` of the list object at `r`: allocates a fresh object
holding an equal list and returns the fresh reference. -/
def deepcopyRef (st : Store) (r : Nat) : Store × Nat :=
  (⟨st.arrays ++ [st.get r]⟩, st.arrays.length)

/-- One iteration of the rewriting loop of `append_nfs_to_fullpaths`,
reading and updating the list object at `ret` in place. -/
def appendNfsStep (px : String → Bool) (ret : Nat) (st : Store) (idx : Nat) : Store :=
  let r := (st.get ret).getD idx ""
  if startsWithSlash r && px r then st.setRef ret ((st.get ret).set idx ("/nfs" ++ r))
  else st

/-- `append_nfs_to_fullpaths` (dispatch.py:116-121) at the heap level:
deep-copy the argument list, then rewrite entries of the copy in place,
returning the new store and the reference of the copy. -/
def append_nfs_to_fullpaths_heap (px : String → Bool) (st : Store) (command : Nat) :
    Store × Nat :=
  let pair := deepcopyRef st command
  ((List.range (pair.1.get pair.2).length).foldl (appendNfsStep px pair.2) pair.1, pair.2)

theorem appendNfsStep_get_ne (px : String → Bool) (ret : Nat) (st : Store) (idx q : Nat)
    (h : q ≠ ret) : (appendNfsStep px ret st idx).get q = st.get q := by
  simp only [appendNfsStep]
  split
  · simp only [Store.setRef, Store.get]
    rw [List.getD_eq_getElem?_getD, List.getElem?_set_ne (fun he => h he.symm),
      ← List.getD_eq_getElem?_getD]
  · rfl

theorem foldl_appendNfsStep_get_ne (px : String → Bool) (ret : Nat) (l : List Nat)
    (st : Store) (q : Nat) (h : q ≠ ret) :
    (l.foldl (appendNfsStep px ret) st).get q = st.get q := by
  induction l generalizing st with
  | nil => rfl
  | cons a as ih => rw [List.foldl_cons, ih, appendNfsStep_get_ne px ret st a q h]

/-- Claim C10: the transform deep-copies the command list and rewrites
only the copy, so the original list object is unchanged after the call
(and the returned reference is a fresh one, distinct from the input). -/
theorem append_nfs_input_unchanged (px : String → Bool) (st : Store) (command : Nat)
    (h : command < st.arrays.length) :
    (append_nfs_to_fullpaths_heap px st command).1.get command = st.get command ∧
    (append_nfs_to_fullpaths_heap px st command).2 ≠ command := by
  have hne : command ≠ st.arrays.length := Nat.ne_of_lt h
  constructor
  · unfold append_nfs_to_fullpaths_heap deepcopyRef
    dsimp only
    rw [foldl_appendNfsStep_get_ne px st.arrays.length _ _ command hne]
    simp only [Store.get]
    rw [List.getD_eq_getElem?_getD, List.getElem?_append, if_pos h,
      ← List.getD_eq_getElem?_getD]
  · exact fun he => hne he.symm

theorem append_nfs_input_unchanged_witness :
    (append_nfs_to_fullpaths_heap (fun s => s == "/d")
      (Store.mk [["/d", "x"]]) 0).1.get 0 = ["/d", "x"] :=
  (append_nfs_input_unchanged (fun s => s == "/d")
    (Store.mk [["/d", "x"]]) 0 (by decide)).1

end Deeperwin
